import Mathlib

/-!
Shallow embedding of the slot-based consistent hash ring from
`src/hash_ring/ring.rs` of the cache proxy repository.

Modelling conventions:
* The node type parameter `T` is instantiated with `Nat` (node ids).
* `u64` values are modelled as `Nat` with an explicit `% u64Bound`
  (`u64Bound = 2 ^ 64`) wherever the source's 64-bit arithmetic can
  overflow: `Ring::expand`'s `checked_mul(2)` and the midpoint addition
  `slot_to_split.start + slot_to_split.end` in `Ring::add` (which wraps in
  a release build and panics in a debug build; the model follows the
  release-mode wrapping semantics).  Version counters are modelled without
  wrapping: a wrap would need `2^64` completed mutations, and the spec
  scopes version wraparound out.
* The hash builder is abstracted: lookup functions take the 64-bit hash
  value of the key as an argument (the source computes it with SipHasher,
  an external crate; every key determines exactly one such value).
* The Rust field `end` of `Slot` is renamed `stop` (`end` is a Lean keyword).
* `Ring::add` contains a `while` loop whose guard does not structurally
  decrease (see `addExpandLoop`); it is modelled with an explicit fuel
  argument, `none` meaning the loop is still running after `fuel`
  iterations (so `∀ fuel, ... = none` expresses divergence).
* `get_replicas` computes `index - 1` on `usize`; when `index = 0` this
  underflows (panic in a debug build).  The outer `Option` of its result
  models that panic as `none`.
-/

namespace HashRing

/-- A slot of the hash ring: `struct Slot<T>` with `start`, `end` (here
`stop`) and the owning node `inner`. -/
structure Slot where
  start : Nat
  stop : Nat
  inner : Nat
deriving DecidableEq, Repr

/-- Placeholder slot used to totalise list indexing (`getD`); never read
on the paths the source actually executes. -/
def dfltSlot : Slot := ⟨0, 0, 0⟩

/-- The ring state: `struct Ring<T, S>` without the hash builder (which is
abstracted away, see module docstring). -/
structure Ring where
  slots : List Slot
  capacity : Nat
  version : Nat
deriving DecidableEq, Repr

/-- `2^64`, the number of `u64` values; `Ring::expand`'s `checked_mul(2)`
fails exactly when the doubled capacity reaches this bound. -/
def u64Bound : Nat := 2 ^ 64

/-- `Ring::new(hash_builder, capacity)`: empty slot list, version 0. -/
def Ring.new (capacity : Nat) : Ring :=
  { slots := [], capacity := capacity, version := 0 }

/-- `Ring::slots_clear`: `self.slots.clear()`.  Note: the source does not
touch `version` here. -/
def slots_clear (r : Ring) : Ring :=
  { r with slots := [] }

/-- The value of the Rust expression `RING_LOAD as usize` where
`RING_LOAD: f64 = 0.75`: the float-to-integer cast truncates toward zero,
yielding `0`. -/
def RING_LOAD_AS_USIZE : Nat := 0

/-- The boundary re-laying loop shared by `Ring::rebalance` and
`Ring::expand`: each slot in order gets `slot.start = start;
start += new_slot_size; slot.end = start - 1`. -/
def relayout (s : Nat) : List Slot → Nat → List Slot
  | [], _ => []
  | slot :: rest, start =>
      { slot with start := start, stop := start + s - 1 } :: relayout s rest (start + s)

/-- `if let Some(last_slot) = self.slots.last_mut() { last_slot.end = cap }`. -/
def setLastEnd : List Slot → Nat → List Slot
  | [], _ => []
  | [s], cap => [{ s with stop := cap }]
  | s :: t :: rest, cap => s :: setLastEnd (t :: rest) cap

/-- `Ring::rebalance`: returns the post-state and the `bool` the source
returns. -/
def rebalance (r : Ring) : Ring × Bool :=
  if r.slots.isEmpty then (r, false)
  else
    let r := { r with version := r.version + 1 }
    let total_range := r.capacity
    let new_slot_size := total_range / r.slots.length
    let slots := setLastEnd (relayout new_slot_size r.slots 1) r.capacity
    ({ r with slots := slots }, true)

/-- `Ring::expand`: doubles capacity via `checked_mul(2)` (failing at the
`u64` bound), then re-lays boundaries as in `rebalance`. -/
def expand (r : Ring) : Ring × Bool :=
  if r.slots.isEmpty then (r, false)
  else
    let r := { r with version := r.version + 1 }
    if r.capacity * 2 < u64Bound then
      let r := { r with capacity := r.capacity * 2 }
      let new_slot_size := r.capacity / r.slots.length
      let slots := setLastEnd (relayout new_slot_size r.slots 1) r.capacity
      ({ r with slots := slots }, true)
    else (r, false)

/-- The key `max_by_key` ranks slots by: `slot.end - slot.start`
(truncated `u64` subtraction; never truncating under the ring invariant). -/
def rangeKey (s : Slot) : Nat := s.stop - s.start

/-- Accumulator pass behind `iter().enumerate().max_by_key(|(_, slot)|
slot.end - slot.start)`: `i` is the index of the next element, `bi`/`bk`
the best index and key so far; `max_by_key` keeps the LAST maximal
element, hence the non-strict `bk ≤ key` test. -/
def maxRangeIndexAux : List Slot → Nat → Nat → Nat → Nat
  | [], _, bi, _ => bi
  | s :: rest, i, bi, bk =>
      if bk ≤ rangeKey s then maxRangeIndexAux rest (i + 1) i (rangeKey s)
      else maxRangeIndexAux rest (i + 1) bi bk

/-- Index of the last slot maximising `end - start` (the slot `Ring::add`
splits). -/
def maxRangeIndex (slots : List Slot) : Nat :=
  maxRangeIndexAux slots 0 0 0

/-- The `while self.slots.len() >= self.capacity as usize * RING_LOAD as
usize && must { self.expand(); }` loop of `Ring::add`, with fuel: `none`
means the guard still held after `fuel` iterations (the loop is still
running). -/
def addExpandLoop (must : Bool) : Nat → Ring → Option Ring
  | 0, r =>
      if decide (r.slots.length ≥ r.capacity * RING_LOAD_AS_USIZE) && must then none
      else some r
  | fuel + 1, r =>
      if decide (r.slots.length ≥ r.capacity * RING_LOAD_AS_USIZE) && must then
        addExpandLoop must fuel (expand r).1
      else some r

/-- The slot-list surgery of `Ring::add`'s split step: find the slot with
the largest range (last maximal index), shrink it to `[start, mid]` and
insert `[mid + 1, end]` for the new node right after it.  The midpoint is
computed by the `u64` expression `(slot_to_split.start + slot_to_split.end)
/ 2`: the addition wraps modulo `2^64` once `start + end` reaches the
`u64` bound (release-build semantics; a debug build panics on the same
overflow), hence the explicit `% u64Bound`.  The subsequent `mid + 1`
cannot wrap, since `mid < 2^63`. -/
def addSplitSlots (slots : List Slot) (node : Nat) : List Slot :=
  let index := maxRangeIndex slots
  let slot_to_split := slots.getD index dfltSlot
  let mid := ((slot_to_split.start + slot_to_split.stop) % u64Bound) / 2
  let new_slot : Slot := ⟨mid + 1, slot_to_split.stop, node⟩
  (slots.set index { slot_to_split with stop := mid }).insertIdx (index + 1) new_slot

/-- `Ring::add(node, must)`.  Result `none` models divergence of the
expansion loop (never terminating within `fuel` iterations); `some (r',
res)` gives the post-state and the Rust `Option<T>` result. -/
def add (fuel : Nat) (r : Ring) (node : Nat) (must : Bool) : Option (Ring × Option Nat) :=
  if r.slots.length ≥ r.capacity then some (r, none)
  else
    let r1 : Ring := { r with version := r.version + 1 }
    if r1.slots.isEmpty then
      some ({ r1 with slots := [⟨1, r1.capacity, node⟩] }, some node)
    else
      match addExpandLoop must fuel r1 with
      | none => none
      | some r2 =>
        let r3 : Ring := { r2 with slots := addSplitSlots r2.slots node }
        if must then
          if !(rebalance r3).2 then some ((rebalance r3).1, none)
          else some ((rebalance r3).1, some node)
        else some (r3, some node)

/-- The `for node in nodes { self.add(node, false).map(|n|
success_nodes.push(n)); }` loop of `Ring::batch_add`. -/
def addAll (fuel : Nat) : List Nat → Ring → List Nat → Option (Ring × List Nat)
  | [], r, acc => some (r, acc)
  | node :: rest, r, acc =>
      match add fuel r node false with
      | none => none
      | some (r', res) =>
          addAll fuel rest r' (match res with | some n => acc ++ [n] | none => acc)

/-- `Ring::batch_add(nodes, must)`. -/
def batch_add (fuel : Nat) (r : Ring) (nodes : List Nat) (must : Bool) :
    Option (Ring × Option (List Nat)) :=
  if must && decide (r.slots.length + nodes.length > r.capacity) then
    if !(expand r).2 then some ((expand r).1, none)
    else if !(rebalance (expand r).1).2 then some ((rebalance (expand r).1).1, none)
    else
      match addAll fuel nodes (rebalance (expand r).1).1 [] with
      | none => none
      | some (r3, success) =>
          if must then some ((rebalance r3).1, some success)
          else some (r3, some success)
  else if r.slots.length + nodes.length > r.capacity then some (r, none)
  else
    match addAll fuel nodes r [] with
    | none => none
    | some (r3, success) =>
        if must then some ((rebalance r3).1, some success)
        else some (r3, some success)

/-- The slot-list surgery of `Ring::remove_by_index` once the index is
known in bounds: remove the slot, then merge its range into the previous
slot (or, at the head, into the new first slot). -/
def removeMerge (slots : List Slot) (index : Nat) : List Slot :=
  let removed := slots.getD index dfltSlot
  let slots1 := slots.eraseIdx index
  if index > 0 then
    slots1.set (index - 1) { slots1.getD (index - 1) dfltSlot with stop := removed.stop }
  else if slots1.length > 0 then
    slots1.set 0 { slots1.getD 0 dfltSlot with start := removed.start }
  else slots1

/-- `Ring::remove_by_index(index, must)`: note the version is incremented
BEFORE the bounds check. -/
def remove_by_index (r : Ring) (index : Nat) (must : Bool) : Ring × Option Nat :=
  let r1 : Ring := { r with version := r.version + 1 }
  if index ≥ r1.slots.length then (r1, none)
  else
    let removed := r1.slots.getD index dfltSlot
    let r2 : Ring := { r1 with slots := removeMerge r1.slots index }
    if must then
      if !(rebalance r2).2 then ((rebalance r2).1, none)
      else ((rebalance r2).1, some removed.inner)
    else (r2, some removed.inner)

/-- `Ring::remove(node, must)`: `position` then `remove_by_index(_, false)`
then an optional rebalance whose result is ignored. -/
def remove (r : Ring) (node : Nat) (must : Bool) : Ring × Option Nat :=
  match r.slots.findIdx? (fun slot => slot.inner == node) with
  | none => (r, none)
  | some index =>
      match remove_by_index r index false with
      | (r1, none) => (r1, none)
      | (r1, some _) =>
          if must then ((rebalance r1).1, some node)
          else (r1, some node)

/-- Insertion step of a descending sort, modelling
`sort_unstable_by(|a, b| b.cmp(a))`. -/
def insertDesc (x : Nat) : List Nat → List Nat
  | [] => [x]
  | y :: ys => if x ≥ y then x :: y :: ys else y :: insertDesc x ys

/-- Descending sort of the index list in `Ring::batch_remove`. -/
def sortDesc (l : List Nat) : List Nat := l.foldr insertDesc []

/-- The removal step of `Ring::batch_remove`'s `for` loop. -/
def batchRemoveStep (acc : Ring × List Nat) (index : Nat) : Ring × List Nat :=
  match remove_by_index acc.1 index false with
  | (r1, some n) => (r1, acc.2 ++ [n])
  | (r1, none) => (r1, acc.2)

/-- `Ring::batch_remove(nodes, must)`: look up all indexes first, remove
them in descending order with `must = false`, then optionally rebalance;
a failed rebalance returns `None` WITHOUT undoing the removals. -/
def batch_remove (r : Ring) (nodes : List Nat) (must : Bool) : Ring × Option (List Nat) :=
  let indexes := sortDesc (nodes.filterMap
    (fun node => r.slots.findIdx? (fun slot => slot.inner == node)))
  let res := indexes.foldl batchRemoveStep (r, [])
  if must then
    if !(rebalance res.1).2 then ((rebalance res.1).1, none)
    else ((rebalance res.1).1, some res.2)
  else (res.1, some res.2)

/-- One halving step of Rust's `slice::binary_search_by` with comparator
`|slot| slot.start.cmp(&idx)`: window `[left, right)`, `Ok i` on an exact
`start` match, `Err left` once the window is empty.  `fuel` bounds the
iterations; `slots.length + 1` always suffices since the window halves. -/
def bsGo (slots : List Slot) (idx : Nat) : Nat → Nat → Nat → Except Nat Nat
  | 0, left, _ => .error left
  | fuel + 1, left, right =>
      if left < right then
        let mid := (left + right) / 2
        let s := slots.getD mid dfltSlot
        if s.start < idx then bsGo slots idx fuel (mid + 1) right
        else if idx < s.start then bsGo slots idx fuel left mid
        else .ok mid
      else .error left

/-- `self.slots.binary_search_by(|slot| slot.start.cmp(&idx))`. -/
def binarySearchByStart (slots : List Slot) (idx : Nat) : Except Nat Nat :=
  bsGo slots idx (slots.length + 1) 0 slots.length

/-- `Ring::get_slot(key)`, taking the key's hash value `h`.  Note: the
source computes `idx = hash % capacity` with NO `+ 1`. -/
def get_slot (r : Ring) (h : Nat) : Option Slot :=
  if r.slots.isEmpty then none
  else
    let idx := h % r.capacity
    match binarySearchByStart r.slots idx with
    | .error index =>
        if index == 0 then some (r.slots.getD (r.slots.length - 1) dfltSlot)
        else some (r.slots.getD (index - 1) dfltSlot)
    | .ok index => some (r.slots.getD index dfltSlot)

/-- `Ring::get_node(key)`. -/
def get_node (r : Ring) (h : Nat) : Option Nat :=
  (get_slot r h).map (fun slot => slot.inner)

/-- `iter().cycle().skip(k).take(n)` on a non-empty slot list: element `j`
of the result is the slot at position `(k + j) % length`. -/
def cycleTake (slots : List Slot) (k n : Nat) : List Slot :=
  (List.range n).map (fun j => slots.getD ((k + j) % slots.length) dfltSlot)

/-- `Ring::get_replicas(key, n)`, taking the key's hash value `h`.  The
outer `Option` models the `usize` underflow panic of `index - 1` when the
binary search misses with insertion point `0` (debug build; a release
build wraps to `2^64 - 1`). -/
def get_replicas (r : Ring) (h : Nat) (n : Nat) : Option (Option (List Slot)) :=
  if r.slots.isEmpty then some none
  else if n > r.slots.length then some (some r.slots)
  else
    let idx := h % r.capacity
    match binarySearchByStart r.slots idx with
    | .error index =>
        if index == 0 then none
        else some (some (cycleTake r.slots (index - 1) n))
    | .ok index => some (some (cycleTake r.slots index n))

/-! ### Specification-side predicates -/

/-- The slot `s` owns index `v` (its inclusive range contains `v`). -/
def slotContains (s : Slot) (v : Nat) : Prop := s.start ≤ v ∧ v ≤ s.stop

instance (s : Slot) (v : Nat) : Decidable (slotContains s v) := by
  unfold slotContains; infer_instance

/-- Number of indexes a slot owns, `end - start + 1`. -/
def slotSize (s : Slot) : Nat := s.stop + 1 - s.start

/-- The slot list partitions `[lo, cap]`: first start is `lo`, slots are
non-empty and adjacent (`end + 1 = next start`), and the last end is
`cap` (empty list allowed only for the empty interval). -/
def Chained : List Slot → Nat → Nat → Prop
  | [], lo, cap => lo = cap + 1
  | s :: rest, lo, cap => s.start = lo ∧ s.start ≤ s.stop ∧ Chained rest (s.stop + 1) cap

/-- Ring invariant: the slots are empty or partition `[1, capacity]`. -/
def Inv (r : Ring) : Prop :=
  r.slots = [] ∨ Chained r.slots 1 r.capacity

/-- The partition property exactly as the spec states it for non-empty
slot sequences: sorted by start, `start ≤ end` everywhere, first start 1,
last end `capacity`, adjacent slots contiguous. -/
def SlotsPartitionSpec (slots : List Slot) (cap : Nat) : Prop :=
  slots.Pairwise (fun a b => a.start < b.start) ∧
  (∀ s ∈ slots, s.start ≤ s.stop) ∧
  (∀ h : slots ≠ [], (slots.head h).start = 1) ∧
  (∀ h : slots ≠ [], (slots.getLast h).stop = cap) ∧
  (∀ i, ∀ h : i + 1 < slots.length,
    (slots.get ⟨i, Nat.lt_of_succ_lt h⟩).stop + 1 = (slots.get ⟨i + 1, h⟩).start)

/-- One state-changing ring operation other than `slots_clear` (an
operation that touches `version`). -/
inductive StepM : Ring → Ring → Prop
  | add (fuel : Nat) (r : Ring) (node : Nat) (must : Bool) (r' : Ring) (res : Option Nat) :
      add fuel r node must = some (r', res) → StepM r r'
  | batch_add (fuel : Nat) (r : Ring) (nodes : List Nat) (must : Bool) (r' : Ring)
      (res : Option (List Nat)) :
      batch_add fuel r nodes must = some (r', res) → StepM r r'
  | remove (r : Ring) (node : Nat) (must : Bool) : StepM r (remove r node must).1
  | remove_by_index (r : Ring) (index : Nat) (must : Bool) :
      StepM r (remove_by_index r index must).1
  | batch_remove (r : Ring) (nodes : List Nat) (must : Bool) :
      StepM r (batch_remove r nodes must).1
  | rebalance (r : Ring) : StepM r (rebalance r).1
  | expand (r : Ring) : StepM r (expand r).1

/-- Any ring operation: a mutation step or `slots_clear`. -/
inductive Step : Ring → Ring → Prop
  | mutation {r r' : Ring} : StepM r r' → Step r r'
  | clear (r : Ring) : Step r (slots_clear r)

/-- Ring states reachable from a freshly constructed ring by any sequence
of operations. -/
inductive Reachable : Ring → Prop
  | new (cap : Nat) : cap < u64Bound → Reachable (Ring.new cap)
  | step {r r' : Ring} : Reachable r → Step r r' → Reachable r'

/-- The lookup index the code actually uses, folded into `[1, cap]`:
`hash % cap` when nonzero, else `cap` (the wrap-around to the last slot). -/
def lookupIdx (h cap : Nat) : Nat :=
  if h % cap = 0 then cap else h % cap

/-! ### Concrete example states used by witnesses and counterexamples -/

/-- A one-slot ring of capacity 1024 (the state after one `add` on a fresh
ring, with an arbitrary version 5). -/
def ringOne : Ring := { slots := [⟨1, 1024, 1⟩], capacity := 1024, version := 5 }

/-- A balanced two-slot ring of capacity 1024. -/
def ringTwo : Ring := { slots := [⟨1, 512, 1⟩, ⟨513, 1024, 2⟩], capacity := 1024, version := 0 }

/-- An unbalanced four-slot ring of capacity 10. -/
def ringFour : Ring :=
  { slots := [⟨1, 3, 1⟩, ⟨4, 5, 2⟩, ⟨6, 8, 3⟩, ⟨9, 10, 4⟩], capacity := 10, version := 0 }

/-- A ring at capacity: one slot, capacity 1. -/
def ringFull : Ring := { slots := [⟨1, 1, 1⟩], capacity := 1, version := 0 }

example : (rebalance ringFour).1.slots = [⟨1, 2, 1⟩, ⟨3, 4, 2⟩, ⟨5, 6, 3⟩, ⟨7, 10, 4⟩] := by
  decide

example : get_slot ringTwo 1024 = some ⟨513, 1024, 2⟩ := by decide

example : get_replicas ringTwo 1024 1 = none := by decide

example : add 0 ringFull 2 true = some (ringFull, none) := by decide

example : batch_add 0 (Ring.new 1024) [1, 2, 3] true =
    some ({ slots := [⟨1, 341, 1⟩, ⟨342, 682, 2⟩, ⟨683, 1024, 3⟩],
            capacity := 1024, version := 4 }, some [1, 2, 3]) := by decide

/-! ### Facts about `Chained` slot lists -/

theorem chained_lo_le_start : ∀ (slots : List Slot) (lo cap : Nat), Chained slots lo cap →
    ∀ s ∈ slots, lo ≤ s.start
  | [], _, _, _, s, hs => absurd hs (List.not_mem_nil s)
  | t :: rest, lo, cap, hc, s, hs => by
    obtain ⟨h1, h2, h3⟩ := hc
    rcases List.mem_cons.mp hs with rfl | hs
    · exact Nat.le_of_eq h1.symm
    · have := chained_lo_le_start rest (t.stop + 1) cap h3 _ hs
      omega

theorem chained_lo_le_cap_succ : ∀ (slots : List Slot) (lo cap : Nat),
    Chained slots lo cap → lo ≤ cap + 1
  | [], _, _, hc => by simp only [Chained] at hc; omega
  | s :: rest, lo, cap, hc => by
    obtain ⟨h1, h2, h3⟩ := hc
    have := chained_lo_le_cap_succ rest (s.stop + 1) cap h3
    omega

theorem chained_len_le : ∀ (slots : List Slot) (lo cap : Nat),
    Chained slots lo cap → lo + slots.length ≤ cap + 1
  | [], _, _, hc => by simp only [Chained] at hc; simp; omega
  | s :: rest, lo, cap, hc => by
    obtain ⟨h1, h2, h3⟩ := hc
    have := chained_len_le rest (s.stop + 1) cap h3
    simp only [List.length_cons]
    omega

theorem chained_wf_mem : ∀ (slots : List Slot) (lo cap : Nat), Chained slots lo cap →
    ∀ s ∈ slots, s.start ≤ s.stop
  | [], _, _, _, s, hs => absurd hs (List.not_mem_nil s)
  | t :: rest, lo, cap, hc, s, hs => by
    obtain ⟨h1, h2, h3⟩ := hc
    rcases List.mem_cons.mp hs with rfl | hs
    · exact h2
    · exact chained_wf_mem rest (t.stop + 1) cap h3 s hs

theorem chained_get_wf (slots : List Slot) (lo cap : Nat) (hc : Chained slots lo cap)
    (i : Nat) (hi : i < slots.length) :
    (slots.get ⟨i, hi⟩).start ≤ (slots.get ⟨i, hi⟩).stop :=
  chained_wf_mem slots lo cap hc _ (slots.get_mem i hi)

theorem chained_get_adj : ∀ (slots : List Slot) (lo cap : Nat), Chained slots lo cap →
    ∀ i, ∀ h : i + 1 < slots.length,
      (slots.get ⟨i, Nat.lt_of_succ_lt h⟩).stop + 1 = (slots.get ⟨i + 1, h⟩).start
  | [], _, _, _, i, h => by simp at h
  | s :: rest, lo, cap, hc, i, h => by
    obtain ⟨h1, h2, h3⟩ := hc
    match i with
    | 0 =>
      have hr : 0 < rest.length := by simpa using h
      match rest, h3, hr with
      | t :: rest2, h3, _ => exact (h3.1).symm
    | i + 1 =>
      exact chained_get_adj rest (s.stop + 1) cap h3 i (by simpa using h)

theorem chained_get_start_lo (slots : List Slot) (lo cap : Nat) (hc : Chained slots lo cap)
    (i : Nat) (hi : i < slots.length) : lo ≤ (slots.get ⟨i, hi⟩).start :=
  chained_lo_le_start slots lo cap hc _ (slots.get_mem i hi)

theorem chained_get_stop_le : ∀ (slots : List Slot) (lo cap : Nat), Chained slots lo cap →
    ∀ i, ∀ hi : i < slots.length, (slots.get ⟨i, hi⟩).stop ≤ cap
  | [], _, _, _, i, hi => by simp at hi
  | s :: rest, lo, cap, hc, i, hi => by
    obtain ⟨h1, h2, h3⟩ := hc
    match i with
    | 0 =>
      have := chained_lo_le_cap_succ rest (s.stop + 1) cap h3
      simpa using Nat.le_of_succ_le_succ this
    | i + 1 =>
      exact chained_get_stop_le rest (s.stop + 1) cap h3 i (by simpa using hi)

theorem chained_last_stop : ∀ (slots : List Slot) (lo cap : Nat) (h : slots ≠ []),
    Chained slots lo cap → (slots.getLast h).stop = cap
  | [], _, _, h, _ => absurd rfl h
  | [s], lo, cap, _, hc => by
    obtain ⟨h1, h2, h3⟩ := hc
    simpa using Nat.succ_injective h3
  | s :: t :: rest, lo, cap, _, hc => by
    obtain ⟨h1, h2, h3⟩ := hc
    rw [List.getLast_cons (by simp)]
    exact chained_last_stop (t :: rest) (s.stop + 1) cap (by simp) h3

theorem chained_start_strictMono : ∀ (slots : List Slot) (lo cap : Nat), Chained slots lo cap →
    ∀ i j, ∀ hi : i < slots.length, ∀ hj : j < slots.length, i < j →
      (slots.get ⟨i, hi⟩).start < (slots.get ⟨j, hj⟩).start
  | [], _, _, _, i, j, hi, _, _ => by simp at hi
  | s :: rest, lo, cap, hc, i, j, hi, hj, hij => by
    obtain ⟨h1, h2, h3⟩ := hc
    match i, j with
    | 0, j + 1 =>
      have hjr : j < rest.length := by simpa using hj
      have := chained_get_start_lo rest (s.stop + 1) cap h3 j hjr
      have : s.stop + 1 ≤ (rest.get ⟨j, hjr⟩).start := this
      show s.start < (rest.get ⟨j, hjr⟩).start
      omega
    | i + 1, j + 1 =>
      exact chained_start_strictMono rest (s.stop + 1) cap h3 i j
        (by simpa using hi) (by simpa using hj) (by omega)

theorem chained_start_mono (slots : List Slot) (lo cap : Nat) (hc : Chained slots lo cap)
    (i j : Nat) (hi : i < slots.length) (hj : j < slots.length) (hij : i ≤ j) :
    (slots.get ⟨i, hi⟩).start ≤ (slots.get ⟨j, hj⟩).start := by
  rcases Nat.lt_or_ge i j with h | h
  · exact Nat.le_of_lt (chained_start_strictMono slots lo cap hc i j hi hj h)
  · have : i = j := Nat.le_antisymm hij h
    subst this; exact Nat.le_refl _

theorem chained_disjoint (slots : List Slot) (lo cap : Nat) (hc : Chained slots lo cap)
    (i j : Nat) (hi : i < slots.length) (hj : j < slots.length) (hij : i < j) :
    (slots.get ⟨i, hi⟩).stop < (slots.get ⟨j, hj⟩).start := by
  have hadj : i + 1 < slots.length ∨ i + 1 = slots.length := by omega
  have hi1 : i + 1 < slots.length := by omega
  have h1 := chained_get_adj slots lo cap hc i hi1
  have h2 := chained_start_mono slots lo cap hc (i + 1) j hi1 hj (by omega)
  omega

theorem chained_unique (slots : List Slot) (lo cap : Nat) (hc : Chained slots lo cap)
    (i j : Nat) (hi : i < slots.length) (hj : j < slots.length) (v : Nat)
    (hvi : slotContains (slots.get ⟨i, hi⟩) v) (hvj : slotContains (slots.get ⟨j, hj⟩) v) :
    i = j := by
  rcases Nat.lt_trichotomy i j with h | h | h
  · have := chained_disjoint slots lo cap hc i j hi hj h
    obtain ⟨_, hv1⟩ := hvi; obtain ⟨hv2, _⟩ := hvj
    omega
  · exact h
  · have := chained_disjoint slots lo cap hc j i hj hi h
    obtain ⟨hv1, _⟩ := hvi; obtain ⟨_, hv2⟩ := hvj
    omega

theorem chained_pairwise : ∀ (slots : List Slot) (lo cap : Nat), Chained slots lo cap →
    slots.Pairwise (fun a b => a.start < b.start)
  | [], _, _, _ => List.Pairwise.nil
  | s :: rest, lo, cap, hc => by
    obtain ⟨h1, h2, h3⟩ := hc
    refine List.Pairwise.cons ?_ (chained_pairwise rest (s.stop + 1) cap h3)
    intro b hb
    have := chained_lo_le_start rest (s.stop + 1) cap h3 b hb
    omega

/-- A `Chained` slot list satisfies the partition property exactly as the
spec states it. -/
theorem chained_partitionSpec (slots : List Slot) (cap : Nat) (hc : Chained slots 1 cap) :
    SlotsPartitionSpec slots cap := by
  refine ⟨chained_pairwise slots 1 cap hc, chained_wf_mem slots 1 cap hc, ?_, ?_, ?_⟩
  · intro h
    match slots, hc with
    | s :: rest, hc => exact hc.1
  · intro h
    exact chained_last_stop slots 1 cap h hc
  · intro i h
    exact chained_get_adj slots 1 cap hc i h

/-! ### The slot `Ring::add` splits: `max_by_key` returns the last maximum -/

theorem maxRangeIndexAux_spec : ∀ (l : List Slot) (i bi bk : Nat),
    (maxRangeIndexAux l i bi bk = bi ∧
      ∀ j, ∀ hj : j < l.length, rangeKey (l.get ⟨j, hj⟩) < bk) ∨
    (∃ j, ∃ hj : j < l.length, maxRangeIndexAux l i bi bk = i + j ∧
      bk ≤ rangeKey (l.get ⟨j, hj⟩) ∧
      ∀ j2, ∀ hj2 : j2 < l.length, rangeKey (l.get ⟨j2, hj2⟩) ≤ rangeKey (l.get ⟨j, hj⟩))
  | [], i, bi, bk => by
    left
    refine ⟨rfl, ?_⟩
    intro j hj; simp at hj
  | s :: rest, i, bi, bk => by
    by_cases hk : bk ≤ rangeKey s
    · have ih := maxRangeIndexAux_spec rest (i + 1) i (rangeKey s)
      rcases ih with ⟨heq, hlt⟩ | ⟨j, hj, heq, hge, hmax⟩
      · right
        refine ⟨0, by simp, ?_, hk, ?_⟩
        · simp only [maxRangeIndexAux, if_pos hk]
          omega
        · intro j2 hj2
          match j2 with
          | 0 => exact Nat.le_refl _
          | j2 + 1 =>
            show rangeKey (rest.get ⟨j2, _⟩) ≤ rangeKey s
            exact Nat.le_of_lt (hlt j2 (by simpa using hj2))
      · right
        refine ⟨j + 1, by simpa using hj, ?_, ?_, ?_⟩
        · simp only [maxRangeIndexAux, if_pos hk]
          omega
        · show bk ≤ rangeKey (rest.get ⟨j, _⟩)
          omega
        · intro j2 hj2
          match j2 with
          | 0 =>
            show rangeKey s ≤ rangeKey (rest.get ⟨j, _⟩)
            omega
          | j2 + 1 => exact hmax j2 (by simpa using hj2)
    · have ih := maxRangeIndexAux_spec rest (i + 1) bi bk
      rcases ih with ⟨heq, hlt⟩ | ⟨j, hj, heq, hge, hmax⟩
      · left
        refine ⟨by simpa [maxRangeIndexAux, hk] using heq, ?_⟩
        intro j2 hj2
        match j2 with
        | 0 =>
          show rangeKey s < bk
          omega
        | j2 + 1 => exact hlt j2 (by simpa using hj2)
      · right
        refine ⟨j + 1, by simpa using hj, ?_, ?_, ?_⟩
        · simp only [maxRangeIndexAux, if_neg hk]
          omega
        · show bk ≤ rangeKey (rest.get ⟨j, _⟩)
          exact hge
        · intro j2 hj2
          match j2 with
          | 0 =>
            show rangeKey s ≤ rangeKey (rest.get ⟨j, _⟩)
            omega
          | j2 + 1 => exact hmax j2 (by simpa using hj2)

theorem maxRangeIndex_spec (slots : List Slot) (hne : slots ≠ []) :
    ∃ hm : maxRangeIndex slots < slots.length,
      ∀ j, ∀ hj : j < slots.length,
        rangeKey (slots.get ⟨j, hj⟩) ≤ rangeKey (slots.get ⟨maxRangeIndex slots, hm⟩) := by
  have h := maxRangeIndexAux_spec slots 0 0 0
  rcases h with ⟨heq, hlt⟩ | ⟨j, hj, heq, _, hmax⟩
  · match slots, hne with
    | s :: rest, _ => exact absurd (hlt 0 (by simp)) (by omega)
  · have hmj : maxRangeIndex slots = j := by unfold maxRangeIndex; omega
    have hm : maxRangeIndex slots < slots.length := by omega
    refine ⟨hm, ?_⟩
    intro j2 hj2
    subst hmj
    exact hmax j2 hj2

theorem chained_singletons_len : ∀ (slots : List Slot) (lo cap : Nat),
    Chained slots lo cap → (∀ s ∈ slots, s.stop ≤ s.start) → lo + slots.length = cap + 1
  | [], lo, cap, hc, _ => by simp only [Chained] at hc; simp [hc]
  | s :: rest, lo, cap, hc, hs => by
    obtain ⟨h1, h2, h3⟩ := hc
    have hse : s.stop = s.start := Nat.le_antisymm (hs s (by simp)) h2
    have := chained_singletons_len rest (s.stop + 1) cap h3
      (fun t ht => hs t (List.mem_cons_of_mem s ht))
    simp only [List.length_cons]
    omega

/-- If the slots partition `[1, cap]` and there are fewer slots than
`cap`, some slot spans at least two indexes. -/
theorem chained_exists_wide (slots : List Slot) (cap : Nat) (hc : Chained slots 1 cap)
    (hlen : slots.length < cap) : ∃ s ∈ slots, 1 ≤ rangeKey s := by
  by_contra hno
  push_neg at hno
  have hall : ∀ s ∈ slots, s.stop ≤ s.start := by
    intro s hs
    have h1 := hno s hs
    unfold rangeKey at h1
    omega
  have := chained_singletons_len slots 1 cap hc hall
  omega

/-- Splitting a slot `[start, stop]` at `mid` into `[start, mid]` and
`[mid + 1, stop]` (the list surgery `Ring::add` performs) preserves the
partition. -/
theorem chained_split : ∀ (slots : List Slot) (lo cap m : Nat) (hm : m < slots.length),
    Chained slots lo cap →
    ∀ mid node, (slots.get ⟨m, hm⟩).start ≤ mid → mid < (slots.get ⟨m, hm⟩).stop →
    Chained ((slots.set m { slots.get ⟨m, hm⟩ with stop := mid }).insertIdx (m + 1)
      ⟨mid + 1, (slots.get ⟨m, hm⟩).stop, node⟩) lo cap
  | [], _, _, m, hm, _, _, _, _, _ => by simp at hm
  | s :: rest, lo, cap, 0, hm, hc, mid, node, hmid1, hmid2 => by
    obtain ⟨h1, h2, h3⟩ := hc
    simp only [List.get] at hmid1 hmid2
    simp only [List.set_cons_zero, List.insertIdx_succ_cons, List.insertIdx_zero]
    exact ⟨h1, hmid1, rfl, hmid2, h3⟩
  | s :: rest, lo, cap, m + 1, hm, hc, mid, node, hmid1, hmid2 => by
    obtain ⟨h1, h2, h3⟩ := hc
    simp only [List.get] at hmid1 hmid2
    simp only [List.set_cons_succ, List.insertIdx_succ_cons]
    exact ⟨h1, h2, chained_split rest (s.stop + 1) cap m (by simpa using hm) h3
      mid node hmid1 hmid2⟩

/-! ### The expansion loop of `Ring::add` -/

/-- With `must = true`, the guard `len ≥ cap * (RING_LOAD as usize) &&
must` is always true because the cast truncates `0.75` to `0`; the loop
never exits. -/
theorem addExpandLoop_true_none : ∀ (fuel : Nat) (r : Ring),
    addExpandLoop true fuel r = none
  | 0, r => by simp [addExpandLoop, RING_LOAD_AS_USIZE]
  | fuel + 1, r => by
    have h : addExpandLoop true (fuel + 1) r = addExpandLoop true fuel (expand r).1 := by
      rw [addExpandLoop]
      simp [RING_LOAD_AS_USIZE]
    rw [h]
    exact addExpandLoop_true_none fuel (expand r).1

/-- The loop terminates only when `must = false`, in which case it does
nothing. -/
theorem addExpandLoop_some_eq (must : Bool) (fuel : Nat) (r r' : Ring)
    (h : addExpandLoop must fuel r = some r') : r' = r ∧ must = false := by
  cases must
  · refine ⟨?_, rfl⟩
    cases fuel <;> simpa [addExpandLoop] using h.symm
  · rw [addExpandLoop_true_none fuel r] at h
    exact absurd h (by simp)

/-! ### `rebalance` and `expand` preserve the partition invariant -/

theorem setLastEnd_cons_cons (a b : Slot) (l : List Slot) (cap : Nat) :
    setLastEnd (a :: b :: l) cap = a :: setLastEnd (b :: l) cap := rfl

/-- The re-laying pass of `rebalance`/`expand` produces a partition of
`[start, cap]` whenever the slot size is positive and the last slot's
start does not overshoot `cap`. -/
theorem chained_relayout : ∀ (slots : List Slot) (s start cap : Nat), slots ≠ [] → 1 ≤ s →
    start + (slots.length - 1) * s ≤ cap →
    Chained (setLastEnd (relayout s slots start) cap) start cap
  | [], _, _, _, h, _, _ => absurd rfl h
  | [x], s, start, cap, _, hs, hcap => by
    simp only [relayout, setLastEnd]
    refine ⟨rfl, ?_, rfl⟩
    simpa using hcap
  | x :: y :: rest, s, start, cap, _, hs, hcap => by
    have e : setLastEnd (relayout s (x :: y :: rest) start) cap
        = { x with start := start, stop := start + s - 1 }
          :: setLastEnd (relayout s (y :: rest) (start + s)) cap := rfl
    rw [e]
    refine ⟨rfl, ?_, ?_⟩
    · show start ≤ start + s - 1
      omega
    · show Chained (setLastEnd (relayout s (y :: rest) (start + s)) cap) (start + s - 1 + 1) cap
      have h1 : start + s - 1 + 1 = start + s := by omega
      rw [h1]
      apply chained_relayout (y :: rest) s (start + s) cap (by simp) hs
      simp only [List.length_cons] at hcap ⊢
      have h2 : rest.length + 1 + 1 - 1 = rest.length + 1 := by omega
      rw [h2, Nat.succ_mul] at hcap
      have h3 : rest.length + 1 - 1 = rest.length := by omega
      rw [h3]
      omega

theorem inv_rebalance (r : Ring) (h : Inv r) : Inv (rebalance r).1 := by
  by_cases he : r.slots.isEmpty
  · simp only [rebalance, if_pos he]
    exact h
  · have hne : r.slots ≠ [] := by simpa [List.isEmpty_iff] using he
    rcases h with h0 | hc
    · exact absurd h0 hne
    have hstate : (rebalance r).1 = { r with
        version := r.version + 1
        slots := setLastEnd (relayout (r.capacity / r.slots.length) r.slots 1) r.capacity } := by
      simp [rebalance, he]
    rw [hstate]
    right
    show Chained (setLastEnd (relayout (r.capacity / r.slots.length) r.slots 1) r.capacity)
      1 r.capacity
    have hpos : 0 < r.slots.length := List.length_pos.mpr hne
    have hlen := chained_len_le r.slots 1 r.capacity hc
    have hle : r.slots.length ≤ r.capacity := by omega
    have hq : 1 ≤ r.capacity / r.slots.length := (Nat.one_le_div_iff hpos).mpr hle
    apply chained_relayout r.slots (r.capacity / r.slots.length) 1 r.capacity hne hq
    have hmul : r.capacity / r.slots.length * r.slots.length ≤ r.capacity :=
      Nat.div_mul_le_self r.capacity r.slots.length
    have hsplit : r.slots.length * (r.capacity / r.slots.length)
        = (r.slots.length - 1) * (r.capacity / r.slots.length)
          + r.capacity / r.slots.length := by
      match hl : r.slots.length, hpos with
      | n + 1, _ => simp [Nat.succ_mul]
    rw [Nat.mul_comm] at hmul
    omega

theorem inv_expand (r : Ring) (h : Inv r) : Inv (expand r).1 := by
  by_cases he : r.slots.isEmpty
  · simp only [expand, if_pos he]
    exact h
  · have hne : r.slots ≠ [] := by simpa [List.isEmpty_iff] using he
    rcases h with h0 | hc
    · exact absurd h0 hne
    by_cases hcap : r.capacity * 2 < u64Bound
    · have hstate : (expand r).1 = { r with
          version := r.version + 1
          capacity := r.capacity * 2
          slots := setLastEnd (relayout (r.capacity * 2 / r.slots.length) r.slots 1)
            (r.capacity * 2) } := by
        simp [expand, he, hcap]
      rw [hstate]
      right
      show Chained (setLastEnd (relayout (r.capacity * 2 / r.slots.length) r.slots 1)
        (r.capacity * 2)) 1 (r.capacity * 2)
      have hpos : 0 < r.slots.length := List.length_pos.mpr hne
      have hlen := chained_len_le r.slots 1 r.capacity hc
      have hle : r.slots.length ≤ r.capacity * 2 := by omega
      have hq : 1 ≤ r.capacity * 2 / r.slots.length := (Nat.one_le_div_iff hpos).mpr hle
      apply chained_relayout r.slots (r.capacity * 2 / r.slots.length) 1 (r.capacity * 2)
        hne hq
      have hmul : r.capacity * 2 / r.slots.length * r.slots.length ≤ r.capacity * 2 :=
        Nat.div_mul_le_self (r.capacity * 2) r.slots.length
      have hsplit : r.slots.length * (r.capacity * 2 / r.slots.length)
          = (r.slots.length - 1) * (r.capacity * 2 / r.slots.length)
            + r.capacity * 2 / r.slots.length := by
        match hl : r.slots.length, hpos with
        | n + 1, _ => simp [Nat.succ_mul]
      rw [Nat.mul_comm] at hmul
      omega
    · have hstate : (expand r).1 = { r with version := r.version + 1 } := by
        simp [expand, he, hcap]
      rw [hstate]
      exact Or.inr hc

/-! ### `remove_by_index` preserves the partition invariant -/

theorem removeMerge_cons_succ_succ (s : Slot) (rest : List Slot) (k : Nat) :
    removeMerge (s :: rest) (k + 2) = s :: removeMerge rest (k + 1) := by
  unfold removeMerge
  rw [if_pos (by omega), if_pos (by omega)]
  rfl

theorem removeMerge_zero_single (s : Slot) : removeMerge [s] 0 = [] := by
  simp [removeMerge]

theorem removeMerge_zero_cons_cons (s t : Slot) (rest2 : List Slot) :
    removeMerge (s :: t :: rest2) 0 = { t with start := s.start } :: rest2 := by
  simp [removeMerge]

theorem removeMerge_one_cons (s t : Slot) (rest2 : List Slot) :
    removeMerge (s :: t :: rest2) 1 = { s with stop := t.stop } :: rest2 := by
  simp [removeMerge]

theorem removeMerge_length : ∀ (slots : List Slot) (index : Nat), index < slots.length →
    (removeMerge slots index).length = slots.length - 1
  | [], index, h => by simp at h
  | [s], 0, _ => by rw [removeMerge_zero_single]; rfl
  | [s], k + 1, h => by simp at h
  | s :: t :: rest2, 0, _ => by rw [removeMerge_zero_cons_cons]; simp
  | s :: t :: rest2, 1, _ => by rw [removeMerge_one_cons]; simp
  | s :: t :: rest2, k + 2, h => by
    have hk : k + 1 < (t :: rest2).length := by
      simp only [List.length_cons] at h ⊢
      omega
    rw [removeMerge_cons_succ_succ]
    have ih := removeMerge_length (t :: rest2) (k + 1) hk
    simp only [List.length_cons, ih] at *
    omega

theorem chained_removeMerge : ∀ (slots : List Slot) (lo cap index : Nat),
    index < slots.length → Chained slots lo cap →
    removeMerge slots index = [] ∨ Chained (removeMerge slots index) lo cap
  | [], _, _, index, hidx, _ => by simp at hidx
  | s :: rest, lo, cap, 0, hidx, hc => by
    obtain ⟨h1, h2, h3⟩ := hc
    cases rest with
    | nil => exact Or.inl (removeMerge_zero_single s)
    | cons t rest2 =>
      obtain ⟨h4, h5, h6⟩ := h3
      right
      rw [removeMerge_zero_cons_cons]
      refine ⟨h1, ?_, h6⟩
      show s.start ≤ t.stop
      omega
  | s :: rest, lo, cap, 1, hidx, hc => by
    obtain ⟨h1, h2, h3⟩ := hc
    cases rest with
    | nil => simp at hidx
    | cons t rest2 =>
      obtain ⟨h4, h5, h6⟩ := h3
      right
      rw [removeMerge_one_cons]
      refine ⟨h1, ?_, h6⟩
      show s.start ≤ t.stop
      omega
  | s :: rest, lo, cap, k + 2, hidx, hc => by
    obtain ⟨h1, h2, h3⟩ := hc
    have hk : k + 1 < rest.length := by
      simp only [List.length_cons] at hidx
      omega
    rw [removeMerge_cons_succ_succ]
    rcases chained_removeMerge rest (s.stop + 1) cap (k + 1) hk h3 with h0 | hch
    · have hlen := removeMerge_length rest (k + 1) hk
      rw [h0] at hlen
      simp at hlen
      omega
    · exact Or.inr ⟨h1, h2, hch⟩

/-- The post-state of `remove_by_index` on an in-bounds index. -/
def removeState (r : Ring) (index : Nat) : Ring :=
  { slots := removeMerge r.slots index, capacity := r.capacity, version := r.version + 1 }

theorem remove_by_index_oob (r : Ring) (index : Nat) (must : Bool)
    (h : index ≥ r.slots.length) :
    remove_by_index r index must = ({ r with version := r.version + 1 }, none) := by
  simp [remove_by_index, h]

theorem remove_by_index_inbounds (r : Ring) (index : Nat) (must : Bool)
    (h : index < r.slots.length) :
    (remove_by_index r index must).1 =
      if must then (rebalance (removeState r index)).1 else removeState r index := by
  unfold remove_by_index
  rw [if_neg (by simpa using Nat.not_le.mpr h)]
  cases must
  · simp [removeState]
  · by_cases hok : (rebalance (removeState r index)).2 <;> simp_all [removeState]

theorem inv_remove_by_index (r : Ring) (index : Nat) (must : Bool) (h : Inv r) :
    Inv (remove_by_index r index must).1 := by
  by_cases hidx : index < r.slots.length
  · rw [remove_by_index_inbounds r index must hidx]
    have hc : Chained r.slots 1 r.capacity := by
      rcases h with h0 | hc
      · rw [h0] at hidx; simp at hidx
      · exact hc
    have hmid : Inv (removeState r index) := by
      rcases chained_removeMerge r.slots 1 r.capacity index hidx hc with h0 | hch
      · exact Or.inl h0
      · exact Or.inr hch
    cases must
    · simpa using hmid
    · simpa using inv_rebalance (removeState r index) hmid
  · rw [remove_by_index_oob r index must (by omega)]
    rcases h with h0 | hc
    · exact Or.inl h0
    · exact Or.inr hc

/-! ### Characterisations of `Ring::add` on each control path -/

theorem add_at_cap (fuel : Nat) (r : Ring) (node : Nat) (must : Bool)
    (h : r.slots.length ≥ r.capacity) : add fuel r node must = some (r, none) := by
  simp [add, h]

/-- The post-state of `Ring::add` on an empty ring. -/
def addEmptyState (r : Ring) (node : Nat) : Ring :=
  { slots := [⟨1, r.capacity, node⟩], capacity := r.capacity, version := r.version + 1 }

/-- The post-state of `Ring::add`'s split path (reached with `must = false`
on a non-empty ring below capacity). -/
def addSplitState (r : Ring) (node : Nat) : Ring :=
  { slots := addSplitSlots r.slots node, capacity := r.capacity, version := r.version + 1 }

theorem add_empty (fuel : Nat) (r : Ring) (node : Nat) (must : Bool)
    (hcap : ¬r.slots.length ≥ r.capacity) (hemp : r.slots = []) :
    add fuel r node must = some (addEmptyState r node, some node) := by
  have hcap0 : ¬r.capacity = 0 := by
    rw [hemp] at hcap
    simpa using hcap
  simp [add, addEmptyState, hemp, hcap0]

theorem addExpandLoop_false (fuel : Nat) (r : Ring) :
    addExpandLoop false fuel r = some r := by
  cases fuel <;> simp [addExpandLoop]

/-- With `must = true` on a non-empty ring below capacity, `Ring::add`
never gets past the expansion loop. -/
theorem add_must_diverges (fuel : Nat) (r : Ring) (node : Nat)
    (hcap : ¬r.slots.length ≥ r.capacity) (hemp : r.slots ≠ []) :
    add fuel r node true = none := by
  have hloop := addExpandLoop_true_none fuel { r with version := r.version + 1 }
  simp [add, hcap, hemp, hloop, List.isEmpty_iff]

theorem add_split (fuel : Nat) (r : Ring) (node : Nat)
    (hcap : ¬r.slots.length ≥ r.capacity) (hemp : r.slots ≠ []) :
    add fuel r node false = some (addSplitState r node, some node) := by
  have hloop := addExpandLoop_false fuel { r with version := r.version + 1 }
  simp [add, addSplitState, hcap, hemp, hloop, List.isEmpty_iff]

/-- Splitting the widest slot preserves the partition whenever the ring is
below capacity (so the widest slot really has at least two indexes) AND
the capacity is small enough that the `u64` midpoint addition `start +
end` cannot wrap: without the `2 * cap < 2^64` bound the conclusion fails
on reachable states (see the C1 claim theorem). -/
theorem chained_addSplit (slots : List Slot) (cap : Nat) (node : Nat)
    (hc : Chained slots 1 cap) (hne : slots ≠ []) (hlen : slots.length < cap)
    (hcap2 : 2 * cap < u64Bound) :
    Chained (addSplitSlots slots node) 1 cap := by
  obtain ⟨hm, hmax⟩ := maxRangeIndex_spec slots hne
  obtain ⟨sw, hsw, hw⟩ := chained_exists_wide slots cap hc hlen
  obtain ⟨⟨j, hj⟩, rfl⟩ := List.mem_iff_get.mp hsw
  have hkey : 1 ≤ rangeKey (slots.get ⟨maxRangeIndex slots, hm⟩) :=
    Nat.le_trans hw (hmax j hj)
  have hwf := chained_get_wf slots 1 cap hc (maxRangeIndex slots) hm
  have hstople := chained_get_stop_le slots 1 cap hc (maxRangeIndex slots) hm
  have hlt : (slots.get ⟨maxRangeIndex slots, hm⟩).start
      < (slots.get ⟨maxRangeIndex slots, hm⟩).stop := by
    unfold rangeKey at hkey; omega
  have hnowrap : ((slots.get ⟨maxRangeIndex slots, hm⟩).start
      + (slots.get ⟨maxRangeIndex slots, hm⟩).stop) % u64Bound
      = (slots.get ⟨maxRangeIndex slots, hm⟩).start
        + (slots.get ⟨maxRangeIndex slots, hm⟩).stop :=
    Nat.mod_eq_of_lt (by omega)
  have hmid1 : (slots.get ⟨maxRangeIndex slots, hm⟩).start
      ≤ ((slots.get ⟨maxRangeIndex slots, hm⟩).start
        + (slots.get ⟨maxRangeIndex slots, hm⟩).stop) / 2 := by
    rw [Nat.le_div_iff_mul_le (by norm_num)]
    omega
  have hmid2 : ((slots.get ⟨maxRangeIndex slots, hm⟩).start
      + (slots.get ⟨maxRangeIndex slots, hm⟩).stop) / 2
      < (slots.get ⟨maxRangeIndex slots, hm⟩).stop := by
    rw [Nat.div_lt_iff_lt_mul (by norm_num)]
    omega
  have hgd : slots.getD (maxRangeIndex slots) dfltSlot
      = slots.get ⟨maxRangeIndex slots, hm⟩ := by
    rw [List.getD_eq_getElem slots dfltSlot hm, List.get_eq_getElem]
  simp only [addSplitSlots, hgd, hnowrap]
  exact chained_split slots 1 cap (maxRangeIndex slots) hm hc _ node hmid1 hmid2

/-- `Ring::add` preserves the partition invariant only under the no-wrap
bound `2 * capacity < 2^64`; see the C1 claim theorem for the violation
beyond it. -/
theorem inv_add (fuel : Nat) (r : Ring) (node : Nat) (must : Bool) (r' : Ring)
    (res : Option Nat) (hcap2 : 2 * r.capacity < u64Bound) (hinv : Inv r)
    (heq : add fuel r node must = some (r', res)) :
    Inv r' := by
  by_cases hcap : r.slots.length ≥ r.capacity
  · rw [add_at_cap fuel r node must hcap] at heq
    simp only [Option.some.injEq, Prod.mk.injEq] at heq
    obtain ⟨h1, -⟩ := heq
    subst h1
    exact hinv
  · by_cases hemp : r.slots = []
    · rw [add_empty fuel r node must hcap hemp] at heq
      simp only [Option.some.injEq, Prod.mk.injEq] at heq
      obtain ⟨h1, -⟩ := heq
      subst h1
      right
      refine ⟨rfl, ?_, rfl⟩
      show 1 ≤ r.capacity
      rw [hemp] at hcap
      simp at hcap
      omega
    · cases must
      · rw [add_split fuel r node hcap hemp] at heq
        simp only [Option.some.injEq, Prod.mk.injEq] at heq
        obtain ⟨h1, -⟩ := heq
        subst h1
        have hc : Chained r.slots 1 r.capacity := by
          rcases hinv with h0 | hc
          · exact absurd h0 hemp
          · exact hc
        exact Or.inr (chained_addSplit r.slots r.capacity node hc hemp (by omega) hcap2)
      · rw [add_must_diverges fuel r node hcap hemp] at heq
        exact absurd heq (by simp)

theorem inv_remove (r : Ring) (node : Nat) (must : Bool) (hinv : Inv r) :
    Inv (remove r node must).1 := by
  unfold remove
  rcases hfind : r.slots.findIdx? (fun slot => slot.inner == node) with _ | index
  · simp only [hfind]
    exact hinv
  · simp only [hfind]
    rcases hrm : remove_by_index r index false with ⟨r1, removed⟩
    have h1 : Inv r1 := by
      have := inv_remove_by_index r index false hinv
      rw [hrm] at this
      exact this
    cases removed with
    | none => exact h1
    | some n =>
      cases must
      · simpa using h1
      · simpa using inv_rebalance r1 h1

theorem inv_foldl_batchRemoveStep : ∀ (l : List Nat) (acc : Ring × List Nat), Inv acc.1 →
    Inv (l.foldl batchRemoveStep acc).1
  | [], acc, h => h
  | index :: rest, acc, h => by
    simp only [List.foldl_cons]
    apply inv_foldl_batchRemoveStep rest
    unfold batchRemoveStep
    rcases hrm : remove_by_index acc.1 index false with ⟨r1, removed⟩
    have h1 : Inv r1 := by
      have := inv_remove_by_index acc.1 index false h
      rw [hrm] at this
      exact this
    cases removed <;> simpa using h1

theorem inv_batch_remove (r : Ring) (nodes : List Nat) (must : Bool) (hinv : Inv r) :
    Inv (batch_remove r nodes must).1 := by
  have hfold := inv_foldl_batchRemoveStep (sortDesc (nodes.filterMap
    (fun node => r.slots.findIdx? (fun slot => slot.inner == node)))) (r, []) hinv
  cases must
  · simpa [batch_remove] using hfold
  · by_cases hok : (rebalance ((sortDesc (nodes.filterMap
        (fun node => r.slots.findIdx? (fun slot => slot.inner == node)))).foldl
        batchRemoveStep (r, [])).1).2 = true
    · simpa [batch_remove, hok] using inv_rebalance _ hfold
    · simpa [batch_remove, hok] using inv_rebalance _ hfold

theorem inv_slots_clear (r : Ring) : Inv (slots_clear r) := Or.inl rfl

/-! ### Version accounting: every mutation either leaves the ring alone or
strictly increases `version` -/

/-- Version-ok transition: the version never decreases, and either slots
and capacity are untouched or the version strictly increased. -/
def VOK (r r' : Ring) : Prop :=
  r.version ≤ r'.version ∧
    ((r'.slots = r.slots ∧ r'.capacity = r.capacity) ∨ r.version < r'.version)

theorem vok_refl (r : Ring) : VOK r r := ⟨Nat.le_refl _, Or.inl ⟨rfl, rfl⟩⟩

theorem vok_trans {a b c : Ring} (h1 : VOK a b) (h2 : VOK b c) : VOK a c := by
  obtain ⟨hle1, hs1⟩ := h1
  obtain ⟨hle2, hs2⟩ := h2
  refine ⟨Nat.le_trans hle1 hle2, ?_⟩
  rcases hs1 with ⟨e1, e2⟩ | hlt
  · rcases hs2 with ⟨e3, e4⟩ | hlt2
    · exact Or.inl ⟨e3.trans e1, e4.trans e2⟩
    · exact Or.inr (Nat.lt_of_le_of_lt hle1 hlt2)
  · exact Or.inr (Nat.lt_of_lt_of_le hlt hle2)

theorem vok_of_bumped {r r' : Ring} (h : r.version < r'.version) : VOK r r' :=
  ⟨Nat.le_of_lt h, Or.inr h⟩

theorem vok_rebalance (r : Ring) : VOK r (rebalance r).1 := by
  by_cases he : r.slots.isEmpty
  · simp only [rebalance, if_pos he]
    exact vok_refl r
  · apply vok_of_bumped
    simp [rebalance, he]

theorem vok_expand (r : Ring) : VOK r (expand r).1 := by
  by_cases he : r.slots.isEmpty
  · simp only [expand, if_pos he]
    exact vok_refl r
  · apply vok_of_bumped
    by_cases hcap : r.capacity * 2 < u64Bound
    · simp [expand, he, hcap]
    · simp [expand, he, hcap]

theorem vok_add (fuel : Nat) (r : Ring) (node : Nat) (must : Bool) (r' : Ring)
    (res : Option Nat) (heq : add fuel r node must = some (r', res)) : VOK r r' := by
  by_cases hcap : r.slots.length ≥ r.capacity
  · rw [add_at_cap fuel r node must hcap] at heq
    simp only [Option.some.injEq, Prod.mk.injEq] at heq
    obtain ⟨h1, -⟩ := heq
    subst h1
    exact vok_refl r
  · by_cases hemp : r.slots = []
    · rw [add_empty fuel r node must hcap hemp] at heq
      simp only [Option.some.injEq, Prod.mk.injEq] at heq
      obtain ⟨h1, -⟩ := heq
      subst h1
      exact vok_of_bumped (by simp [addEmptyState])
    · cases must
      · rw [add_split fuel r node hcap hemp] at heq
        simp only [Option.some.injEq, Prod.mk.injEq] at heq
        obtain ⟨h1, -⟩ := heq
        subst h1
        exact vok_of_bumped (by simp [addSplitState])
      · rw [add_must_diverges fuel r node hcap hemp] at heq
        exact absurd heq (by simp)

theorem vok_addAll : ∀ (nodes : List Nat) (fuel : Nat) (r : Ring) (acc : List Nat)
    (r' : Ring) (acc' : List Nat), addAll fuel nodes r acc = some (r', acc') → VOK r r'
  | [], fuel, r, acc, r', acc', heq => by
    simp only [addAll, Option.some.injEq, Prod.mk.injEq] at heq
    obtain ⟨h1, -⟩ := heq
    subst h1
    exact vok_refl r
  | node :: rest, fuel, r, acc, r', acc', heq => by
    unfold addAll at heq
    rcases hadd : add fuel r node false with _ | ⟨r1, res⟩
    · rw [hadd] at heq
      exact absurd heq (by simp)
    · rw [hadd] at heq
      exact vok_trans (vok_add fuel r node false r1 res hadd)
        (vok_addAll rest fuel r1 _ r' acc' heq)

theorem vok_batch_add (fuel : Nat) (r : Ring) (nodes : List Nat) (must : Bool)
    (r' : Ring) (res : Option (List Nat))
    (heq : batch_add fuel r nodes must = some (r', res)) : VOK r r' := by
  unfold batch_add at heq
  by_cases h1 : (must && decide (r.slots.length + nodes.length > r.capacity)) = true
  · rw [if_pos h1] at heq
    by_cases h2 : (!(expand r).2) = true
    · rw [if_pos h2] at heq
      simp only [Option.some.injEq, Prod.mk.injEq] at heq
      obtain ⟨hh, -⟩ := heq
      subst hh
      exact vok_expand r
    · rw [if_neg h2] at heq
      by_cases h3 : (!(rebalance (expand r).1).2) = true
      · rw [if_pos h3] at heq
        simp only [Option.some.injEq, Prod.mk.injEq] at heq
        obtain ⟨hh, -⟩ := heq
        subst hh
        exact vok_trans (vok_expand r) (vok_rebalance (expand r).1)
      · rw [if_neg h3] at heq
        rcases haa : addAll fuel nodes (rebalance (expand r).1).1 [] with _ | ⟨r3, succ⟩
        · rw [haa] at heq
          exact absurd heq (by simp)
        · rw [haa] at heq
          have hv3 : VOK r r3 := vok_trans (vok_trans (vok_expand r)
            (vok_rebalance (expand r).1)) (vok_addAll nodes fuel _ [] r3 succ haa)
          have hmust : must = true := by
            cases must
            · simp at h1
            · rfl
          rw [hmust] at heq
          simp only [if_true] at heq
          simp only [Option.some.injEq, Prod.mk.injEq] at heq
          obtain ⟨hh, -⟩ := heq
          subst hh
          exact vok_trans hv3 (vok_rebalance r3)
  · rw [if_neg h1] at heq
    by_cases h2 : r.slots.length + nodes.length > r.capacity
    · rw [if_pos h2] at heq
      simp only [Option.some.injEq, Prod.mk.injEq] at heq
      obtain ⟨hh, -⟩ := heq
      subst hh
      exact vok_refl r
    · rw [if_neg h2] at heq
      rcases haa : addAll fuel nodes r [] with _ | ⟨r3, succ⟩
      · rw [haa] at heq
        exact absurd heq (by simp)
      · rw [haa] at heq
        have hv3 : VOK r r3 := vok_addAll nodes fuel r [] r3 succ haa
        cases must
        · simp only [Bool.false_eq_true, if_false] at heq
          simp only [Option.some.injEq, Prod.mk.injEq] at heq
          obtain ⟨hh, -⟩ := heq
          subst hh
          exact hv3
        · simp only [if_true] at heq
          simp only [Option.some.injEq, Prod.mk.injEq] at heq
          obtain ⟨hh, -⟩ := heq
          subst hh
          exact vok_trans hv3 (vok_rebalance r3)

theorem vok_remove_by_index (r : Ring) (index : Nat) (must : Bool) :
    VOK r (remove_by_index r index must).1 := by
  by_cases hidx : index < r.slots.length
  · rw [remove_by_index_inbounds r index must hidx]
    have h1 : VOK r (removeState r index) := vok_of_bumped (by simp [removeState])
    cases must
    · simpa using h1
    · simpa using vok_trans h1 (vok_rebalance (removeState r index))
  · rw [remove_by_index_oob r index must (by omega)]
    exact vok_of_bumped (by simp)

theorem vok_remove (r : Ring) (node : Nat) (must : Bool) : VOK r (remove r node must).1 := by
  unfold remove
  rcases hfind : r.slots.findIdx? (fun slot => slot.inner == node) with _ | index
  · simp only [hfind]
    exact vok_refl r
  · simp only [hfind]
    rcases hrm : remove_by_index r index false with ⟨r1, removed⟩
    have h1 : VOK r r1 := by
      have := vok_remove_by_index r index false
      rw [hrm] at this
      exact this
    cases removed with
    | none => exact h1
    | some n =>
      cases must
      · simpa using h1
      · simpa using vok_trans h1 (vok_rebalance r1)

theorem vok_foldl_batchRemoveStep : ∀ (l : List Nat) (acc : Ring × List Nat),
    VOK acc.1 (l.foldl batchRemoveStep acc).1
  | [], acc => vok_refl acc.1
  | index :: rest, acc => by
    simp only [List.foldl_cons]
    refine vok_trans ?_ (vok_foldl_batchRemoveStep rest (batchRemoveStep acc index))
    unfold batchRemoveStep
    rcases hrm : remove_by_index acc.1 index false with ⟨r1, removed⟩
    have h1 : VOK acc.1 r1 := by
      have := vok_remove_by_index acc.1 index false
      rw [hrm] at this
      exact this
    cases removed <;> simpa using h1

theorem vok_batch_remove (r : Ring) (nodes : List Nat) (must : Bool) :
    VOK r (batch_remove r nodes must).1 := by
  have hfold := vok_foldl_batchRemoveStep (sortDesc (nodes.filterMap
    (fun node => r.slots.findIdx? (fun slot => slot.inner == node)))) (r, [])
  cases must
  · simpa [batch_remove] using hfold
  · by_cases hok : (rebalance ((sortDesc (nodes.filterMap
        (fun node => r.slots.findIdx? (fun slot => slot.inner == node)))).foldl
        batchRemoveStep (r, [])).1).2 = true
    · simpa [batch_remove, hok] using vok_trans hfold (vok_rebalance _)
    · simpa [batch_remove, hok] using vok_trans hfold (vok_rebalance _)

theorem vok_stepM (r r' : Ring) (h : StepM r r') : VOK r r' := by
  cases h with
  | add fuel _ node must _ res heq => exact vok_add fuel r node must r' res heq
  | batch_add fuel _ nodes must _ res heq => exact vok_batch_add fuel r nodes must r' res heq
  | remove _ node must => exact vok_remove r node must
  | remove_by_index _ index must => exact vok_remove_by_index r index must
  | batch_remove _ nodes must => exact vok_batch_remove r nodes must
  | rebalance _ => exact vok_rebalance r
  | expand _ => exact vok_expand r

/-! ### Slot sizes after `rebalance` -/

theorem relayout_length : ∀ (slots : List Slot) (s start : Nat),
    (relayout s slots start).length = slots.length
  | [], _, _ => rfl
  | x :: rest, s, start => by
    simp only [relayout, List.length_cons]
    rw [relayout_length rest s (start + s)]

theorem setLastEnd_length : ∀ (slots : List Slot) (cap : Nat),
    (setLastEnd slots cap).length = slots.length
  | [], _ => rfl
  | [s], _ => rfl
  | s :: t :: rest, cap => by
    simp only [setLastEnd, List.length_cons]
    have := setLastEnd_length (t :: rest) cap
    simp only [List.length_cons] at this
    omega

theorem relayout_getD : ∀ (slots : List Slot) (s start i : Nat), i < slots.length →
    (relayout s slots start).getD i dfltSlot
      = { slots.getD i dfltSlot with start := start + i * s, stop := start + i * s + s - 1 }
  | [], _, _, i, hi => by simp at hi
  | x :: rest, s, start, 0, _ => by simp [relayout]
  | x :: rest, s, start, i + 1, hi => by
    simp only [relayout, List.getD_cons_succ]
    rw [relayout_getD rest s (start + s) i (by simpa using hi)]
    have : start + s + i * s = start + (i + 1) * s := by ring
    rw [this]

theorem setLastEnd_getD_of_lt : ∀ (slots : List Slot) (cap i : Nat), i + 1 < slots.length →
    (setLastEnd slots cap).getD i dfltSlot = slots.getD i dfltSlot
  | [], _, i, hi => by simp at hi
  | [s], _, i, hi => by simp at hi
  | s :: t :: rest, cap, 0, _ => by simp [setLastEnd]
  | s :: t :: rest, cap, i + 1, hi => by
    simp only [setLastEnd, List.getD_cons_succ]
    exact setLastEnd_getD_of_lt (t :: rest) cap i (by simpa using hi)

theorem setLastEnd_getD_last : ∀ (slots : List Slot) (cap : Nat), slots ≠ [] →
    (setLastEnd slots cap).getD (slots.length - 1) dfltSlot
      = { slots.getD (slots.length - 1) dfltSlot with stop := cap }
  | [], _, h => absurd rfl h
  | [s], cap, _ => by simp [setLastEnd]
  | s :: t :: rest, cap, _ => by
    simp only [setLastEnd, List.length_cons]
    have h2 : rest.length + 1 + 1 - 1 = rest.length + 1 := by omega
    rw [h2]
    have := setLastEnd_getD_last (t :: rest) cap (by simp)
    simp only [List.length_cons] at this
    have h3 : rest.length + 1 - 1 = rest.length := by omega
    rw [h3] at this
    simpa using this

/-! ### When `rebalance` fails -/

theorem rebalance_of_empty (r : Ring) (h : r.slots = []) : rebalance r = (r, false) := by
  simp [rebalance, h]

theorem rebalance_false_iff (r : Ring) : (rebalance r).2 = false ↔ r.slots = [] := by
  by_cases he : r.slots.isEmpty
  · simp only [rebalance, if_pos he]
    simpa [List.isEmpty_iff] using he
  · simp only [rebalance, if_neg he]
    simpa [List.isEmpty_iff] using he

/-! ### Binary-search correctness and `get_slot` semantics -/

theorem getD_eq_get_of_lt (slots : List Slot) (i : Nat) (hi : i < slots.length) :
    slots.getD i dfltSlot = slots.get ⟨i, hi⟩ := by
  rw [List.getD_eq_getElem slots dfltSlot hi, List.get_eq_getElem]

/-- Correctness of the halving loop of `binary_search_by` on a list with
strictly increasing starts: an exact match, or the partition point
separating starts below `idx` from starts above it. -/
theorem bsGo_spec (slots : List Slot) (idx : Nat)
    (hmono : ∀ i j, ∀ hi : i < slots.length, ∀ hj : j < slots.length, i < j →
      (slots.get ⟨i, hi⟩).start < (slots.get ⟨j, hj⟩).start) :
    ∀ (fuel left right : Nat), left ≤ slots.length → right ≤ slots.length →
    right - left < fuel →
    (∀ j, ∀ hj : j < slots.length, j < left → (slots.get ⟨j, hj⟩).start < idx) →
    (∀ j, ∀ hj : j < slots.length, right ≤ j → idx < (slots.get ⟨j, hj⟩).start) →
    (∃ i, ∃ hi : i < slots.length, bsGo slots idx fuel left right = .ok i ∧
      (slots.get ⟨i, hi⟩).start = idx) ∨
    (∃ p, bsGo slots idx fuel left right = .error p ∧ p ≤ slots.length ∧
      (∀ j, ∀ hj : j < slots.length, j < p → (slots.get ⟨j, hj⟩).start < idx) ∧
      (∀ j, ∀ hj : j < slots.length, p ≤ j → idx < (slots.get ⟨j, hj⟩).start))
  | 0, left, right, _, _, hfuel, _, _ => by omega
  | fuel + 1, left, right, hleft, hright, hfuel, hinvL, hinvR => by
    by_cases hlr : left < right
    · have hmidlt : (left + right) / 2 < right := by omega
      have hmidge : left ≤ (left + right) / 2 := by omega
      have hmidlen : (left + right) / 2 < slots.length := by omega
      simp only [bsGo, if_pos hlr]
      rw [getD_eq_get_of_lt slots ((left + right) / 2) hmidlen]
      by_cases hc1 : (slots.get ⟨(left + right) / 2, hmidlen⟩).start < idx
      · rw [if_pos hc1]
        apply bsGo_spec slots idx hmono fuel ((left + right) / 2 + 1) right
          (by omega) hright (by omega) ?_ hinvR
        intro j hj hjlt
        rcases Nat.lt_or_ge j ((left + right) / 2) with hcase | hcase
        · exact Nat.lt_trans (hmono j _ hj hmidlen hcase) hc1
        · have hje : j = (left + right) / 2 := by omega
          subst hje
          exact hc1
      · rw [if_neg hc1]
        by_cases hc2 : idx < (slots.get ⟨(left + right) / 2, hmidlen⟩).start
        · rw [if_pos hc2]
          apply bsGo_spec slots idx hmono fuel left ((left + right) / 2)
            hleft (by omega) (by omega) hinvL ?_
          intro j hj hjge
          rcases Nat.lt_or_ge ((left + right) / 2) j with hcase | hcase
          · exact Nat.lt_trans hc2 (hmono _ j hmidlen hj hcase)
          · have hje : j = (left + right) / 2 := by omega
            subst hje
            exact hc2
        · rw [if_neg hc2]
          left
          exact ⟨(left + right) / 2, hmidlen, rfl, by omega⟩
    · simp only [bsGo, if_neg hlr]
      right
      refine ⟨left, rfl, hleft, ?_, ?_⟩
      · intro j hj hjlt
        exact hinvL j hj hjlt
      · intro j hj hjge
        exact hinvR j hj (by omega)

theorem get_slot_eq (r : Ring) (h : Nat) (hne : r.slots ≠ []) :
    get_slot r h =
      match binarySearchByStart r.slots (h % r.capacity) with
      | .error index =>
          if index == 0 then some (r.slots.getD (r.slots.length - 1) dfltSlot)
          else some (r.slots.getD (index - 1) dfltSlot)
      | .ok index => some (r.slots.getD index dfltSlot) := by
  have hif : r.slots.isEmpty = false := by simpa [List.isEmpty_iff] using hne
  simp only [get_slot, hif, Bool.false_eq_true, if_false]

theorem get_slot_of_ok (r : Ring) (h index : Nat) (hne : r.slots ≠ [])
    (hok : binarySearchByStart r.slots (h % r.capacity) = .ok index) :
    get_slot r h = some (r.slots.getD index dfltSlot) := by
  rw [get_slot_eq r h hne, hok]

theorem get_slot_of_err_zero (r : Ring) (h : Nat) (hne : r.slots ≠ [])
    (herr : binarySearchByStart r.slots (h % r.capacity) = .error 0) :
    get_slot r h = some (r.slots.getD (r.slots.length - 1) dfltSlot) := by
  rw [get_slot_eq r h hne, herr]
  rfl

theorem get_slot_of_err_pos (r : Ring) (h p : Nat) (hne : r.slots ≠ []) (hp : p ≠ 0)
    (herr : binarySearchByStart r.slots (h % r.capacity) = .error p) :
    get_slot r h = some (r.slots.getD (p - 1) dfltSlot) := by
  rw [get_slot_eq r h hne, herr]
  simp [hp]

theorem chained_get_last_stop (slots : List Slot) (lo cap : Nat) (hc : Chained slots lo cap)
    (hne : slots ≠ []) (hlt : slots.length - 1 < slots.length) :
    (slots.get ⟨slots.length - 1, hlt⟩).stop = cap := by
  have hlast := chained_last_stop slots lo cap hne hc
  rw [List.getLast_eq_getElem] at hlast
  rw [List.get_eq_getElem]
  exact hlast

theorem chained_cap_pos (slots : List Slot) (cap : Nat) (hc : Chained slots 1 cap)
    (hne : slots ≠ []) : 1 ≤ cap := by
  have h0 : 0 < slots.length := List.length_pos.mpr hne
  have h1 : (1 : Nat) ≤ (slots.get ⟨0, h0⟩).start := chained_get_start_lo slots 1 cap hc 0 h0
  have h2 := chained_get_wf slots 1 cap hc 0 h0
  have h3 := chained_get_stop_le slots 1 cap hc 0 h0
  omega

/-- C2 amended: on a non-empty ring whose slots partition [1, capacity],
get_slot applies NO +1 bias: with idx = hash mod capacity it returns the
unique slot containing idx when idx ≥ 1, and wraps to the last slot — the
unique slot containing capacity — when idx = 0.  Equivalently it returns
the unique slot whose range contains lookupIdx hash capacity. -/
theorem get_slot_wrap_semantics (r : Ring) (h : Nat)
    (hc : Chained r.slots 1 r.capacity) (hne : r.slots ≠ []) :
    ∃ i, ∃ hi : i < r.slots.length,
      get_slot r h = some (r.slots.get ⟨i, hi⟩) ∧
      slotContains (r.slots.get ⟨i, hi⟩) (lookupIdx h r.capacity) ∧
      ∀ j, ∀ hj : j < r.slots.length,
        slotContains (r.slots.get ⟨j, hj⟩) (lookupIdx h r.capacity) → j = i := by
  have hcap1 : 1 ≤ r.capacity := chained_cap_pos r.slots r.capacity hc hne
  have hidx : h % r.capacity < r.capacity := Nat.mod_lt h (by omega)
  have h0len : 0 < r.slots.length := List.length_pos.mpr hne
  have hfirst : (r.slots.get ⟨0, h0len⟩).start = 1 := by
    match hs : r.slots, hc, h0len with
    | s :: rest, hc, _ => exact hc.1
  have hspec := bsGo_spec r.slots (h % r.capacity)
    (chained_start_strictMono r.slots 1 r.capacity hc)
    (r.slots.length + 1) 0 r.slots.length (by omega) (Nat.le_refl _) (by omega)
    (by intro j hj hjlt; omega)
    (by intro j hj hjge; omega)
  rcases hspec with ⟨i, hi, hok, hstart⟩ | ⟨p, herr, hple, hpl, hpr⟩
  · have hok2 : binarySearchByStart r.slots (h % r.capacity) = .ok i := hok
    have hge1 : 1 ≤ h % r.capacity := by
      have := chained_get_start_lo r.slots 1 r.capacity hc i hi
      omega
    have hlk : lookupIdx h r.capacity = h % r.capacity := by
      unfold lookupIdx
      rw [if_neg (by omega)]
    have hwf := chained_get_wf r.slots 1 r.capacity hc i hi
    refine ⟨i, hi, ?_, ?_, ?_⟩
    · rw [get_slot_of_ok r h i hne hok2, getD_eq_get_of_lt r.slots i hi]
    · rw [hlk]
      exact ⟨by omega, by omega⟩
    · intro j hj hcont
      exact chained_unique r.slots 1 r.capacity hc j i hj hi _ hcont
        (by rw [hlk]; exact ⟨by omega, by omega⟩)
  · have herr2 : binarySearchByStart r.slots (h % r.capacity) = .error p := herr
    by_cases hp0 : p = 0
    · subst hp0
      have hidx0 : h % r.capacity = 0 := by
        have := hpr 0 h0len (by omega)
        omega
      have hlk : lookupIdx h r.capacity = r.capacity := by
        unfold lookupIdx
        rw [if_pos hidx0]
      have hlt1 : r.slots.length - 1 < r.slots.length := by omega
      have hlaststop := chained_get_last_stop r.slots 1 r.capacity hc hne hlt1
      have hlastwf := chained_get_wf r.slots 1 r.capacity hc (r.slots.length - 1) hlt1
      refine ⟨r.slots.length - 1, hlt1, ?_, ?_, ?_⟩
      · rw [get_slot_of_err_zero r h hne herr2,
          getD_eq_get_of_lt r.slots (r.slots.length - 1) hlt1]
      · rw [hlk]
        exact ⟨by omega, by omega⟩
      · intro j hj hcont
        exact chained_unique r.slots 1 r.capacity hc j (r.slots.length - 1) hj hlt1 _
          hcont (by rw [hlk]; exact ⟨by omega, by omega⟩)
    · have hp1 : 1 ≤ p := by omega
      have hplt : p - 1 < r.slots.length := by omega
      have hstartlt : (r.slots.get ⟨p - 1, hplt⟩).start < h % r.capacity :=
        hpl (p - 1) hplt (by omega)
      have hge1 : 1 ≤ h % r.capacity := by
        have := chained_get_start_lo r.slots 1 r.capacity hc (p - 1) hplt
        omega
      have hlk : lookupIdx h r.capacity = h % r.capacity := by
        unfold lookupIdx
        rw [if_neg (by omega)]
      have hub : h % r.capacity ≤ (r.slots.get ⟨p - 1, hplt⟩).stop := by
        by_cases hpe : p < r.slots.length
        · have hadj1 : p - 1 + 1 < r.slots.length := by omega
          have hadj := chained_get_adj r.slots 1 r.capacity hc (p - 1) hadj1
          have hpidx := hpr p hpe (by omega)
          have hpeq : p - 1 + 1 = p := by omega
          simp only [hpeq] at hadj
          omega
        · have hpeq : p = r.slots.length := by omega
          have hlt1 : r.slots.length - 1 < r.slots.length := by omega
          have hlaststop := chained_get_last_stop r.slots 1 r.capacity hc hne hlt1
          have hpeq2 : p - 1 = r.slots.length - 1 := by omega
          simp only [hpeq2]
          omega
      refine ⟨p - 1, hplt, ?_, ?_, ?_⟩
      · rw [get_slot_of_err_pos r h p hne hp0 herr2, getD_eq_get_of_lt r.slots (p - 1) hplt]
      · rw [hlk]
        exact ⟨by omega, by omega⟩
      · intro j hj hcont
        exact chained_unique r.slots 1 r.capacity hc j (p - 1) hj hplt _ hcont
          (by rw [hlk]; exact ⟨by omega, by omega⟩)

/-! ### Claim theorems -/

/-- C1: code bug — the claim asserts that every Ring state reachable from
a new ring by add, batch_add, remove, remove_by_index, batch_remove,
rebalance, expand and slots_clear keeps a non-empty slot sequence sorted
by start with start ≤ end everywhere, first start 1, last end = capacity
and adjacent slots contiguous.  But `Ring::add`'s midpoint
`(slot_to_split.start + slot_to_split.end) / 2` is a `u64` addition that
wraps modulo 2^64 (panicking in a debug build): starting from
`Ring::new(u64::MAX)`, `add(1, false)` creates the slot [1, 2^64 - 1] and
the next `add(2, false)` computes mid = ((1 + (2^64 - 1)) mod 2^64) / 2 =
0, reaching the slots [1, 0], [1, 2^64 - 1], which violate start ≤ end
(and sortedness and disjointness): a reachable state falsifying the
claimed partition property. -/
theorem add_overflow_breaks_partition :
    ∃ r : Ring, Reachable r ∧ r.slots ≠ [] ∧ ¬ SlotsPartitionSpec r.slots r.capacity := by
  refine ⟨{ slots := [⟨1, 0, 1⟩, ⟨1, u64Bound - 1, 2⟩]
            capacity := u64Bound - 1
            version := 2 }, ?_, by simp, ?_⟩
  · refine Reachable.step (Reachable.step (Reachable.new (u64Bound - 1) (by decide))
      (Step.mutation (StepM.add 0 (Ring.new (u64Bound - 1)) 1 false
        { slots := [⟨1, u64Bound - 1, 1⟩], capacity := u64Bound - 1, version := 1 }
        (some 1) (by decide))))
      (Step.mutation (StepM.add 0
        { slots := [⟨1, u64Bound - 1, 1⟩], capacity := u64Bound - 1, version := 1 } 2 false
        { slots := [⟨1, 0, 1⟩, ⟨1, u64Bound - 1, 2⟩]
          capacity := u64Bound - 1
          version := 2 } (some 2) (by decide)))
  · intro hspec
    exact absurd (hspec.2.1 ⟨1, 0, 1⟩ (by simp)) (by decide)

/-- C2 counterexample: on the balanced two-slot ring of capacity 1024
(which satisfies the partition invariant), a key with hash 1024 gives
hash mod capacity + 1 = 1, owned by the first slot [1, 512]; yet get_slot
returns the LAST slot [513, 1024], which does not contain 1 — the code
applies no +1 bias before the binary search. -/
theorem get_slot_no_bias_cex :
    Chained ringTwo.slots 1 ringTwo.capacity ∧
    get_slot ringTwo 1024 = some ⟨513, 1024, 2⟩ ∧
    1024 % ringTwo.capacity + 1 = 1 ∧
    ¬slotContains ⟨513, 1024, 2⟩ (1024 % ringTwo.capacity + 1) := by
  refine ⟨?_, by decide, by decide, by decide⟩
  show Chained [⟨1, 512, 1⟩, ⟨513, 1024, 2⟩] 1 1024
  refine ⟨rfl, by norm_num, rfl, by norm_num, rfl⟩

theorem get_slot_wrap_semantics_witness :
    ∃ i, ∃ hi : i < ringTwo.slots.length,
      get_slot ringTwo 7 = some (ringTwo.slots.get ⟨i, hi⟩) ∧
      slotContains (ringTwo.slots.get ⟨i, hi⟩) (lookupIdx 7 ringTwo.capacity) ∧
      ∀ j, ∀ hj : j < ringTwo.slots.length,
        slotContains (ringTwo.slots.get ⟨j, hj⟩) (lookupIdx 7 ringTwo.capacity) → j = i :=
  get_slot_wrap_semantics ringTwo 7
    (by refine ⟨rfl, by norm_num, rfl, by norm_num, rfl⟩) (by decide)

/-- C3 (code bug): with at least one slot and n within the slot count, a
key whose hash is a multiple of the capacity drives the binary search to
a miss with insertion point 0, and `get_replicas` evaluates `0 - 1` on
`usize` — an underflow panic (modelled by the outer `none`) — instead of
returning min(n, slots.len()) distinct slots. -/
theorem get_replicas_underflow_at_zero :
    1 ≤ ringTwo.slots.length ∧ 1024 % ringTwo.capacity = 0 ∧
    get_replicas ringTwo 1024 1 = none := by decide

/-- C4 counterexample: slots_clear empties a non-empty slot sequence (a
state change) while leaving the version exactly as it was. -/
theorem slots_clear_version_cex :
    (slots_clear ringOne).slots ≠ ringOne.slots ∧
    (slots_clear ringOne).version = ringOne.version := by decide

/-- C4 amended: every state-changing operation other than slots_clear
(add, batch_add, remove, remove_by_index, batch_remove, rebalance,
expand) leaves the version strictly greater than before whenever it
changes the slots or the capacity; slots_clear, however, empties the slot
sequence while leaving version and capacity untouched. -/
theorem version_strict_on_mutation :
    (∀ r r' : Ring, StepM r r' → (r'.slots ≠ r.slots ∨ r'.capacity ≠ r.capacity) →
      r.version < r'.version) ∧
    (∀ r : Ring, slots_clear r = { r with slots := [] }) := by
  constructor
  · intro r r' h hch
    obtain ⟨hle, hcase⟩ := vok_stepM r r' h
    rcases hcase with ⟨e1, e2⟩ | hlt
    · rcases hch with hch | hch
      · exact absurd e1 hch
      · exact absurd e2 hch
    · exact hlt
  · intro r
    rfl

theorem version_strict_on_mutation_witness :
    ringFour.version < (rebalance ringFour).1.version :=
  version_strict_on_mutation.1 ringFour (rebalance ringFour).1
    (StepM.rebalance ringFour) (by decide)

/-- C5 (code bug): for every non-empty ring with fewer slots than its
capacity, add(node, must = true) does not terminate for any number of
loop iterations: the guard multiplies the capacity by
`RING_LOAD as usize` = 0 (the 0.75 load factor truncates to zero), so it
holds in every state, and the claimed exit condition
slots.len() < 0.75 × capacity is never consulted. -/
theorem add_must_true_never_returns (fuel : Nat) (r : Ring) (node : Nat)
    (hne : r.slots ≠ []) (hlen : r.slots.length < r.capacity) :
    add fuel r node true = none :=
  add_must_diverges fuel r node (by omega) hne

theorem add_must_true_never_returns_witness : add 9 ringTwo 7 true = none :=
  add_must_true_never_returns 9 ringTwo 7 (by decide) (by decide)

/-- C6 counterexample: a ring at capacity (one slot, capacity 1) whose
capacity could be doubled without overflow still gets absent from
add(node, must = true): the fullness check precedes any expansion, so no
new slot is produced. -/
theorem add_at_capacity_must_cex :
    ringFull.slots.length = ringFull.capacity ∧ ringFull.capacity * 2 < u64Bound ∧
    add 9 ringFull 2 true = some (ringFull, none) := by decide

/-- C6 amended: whenever add returns at all, it returns absent exactly
when the ring was already at (or beyond) capacity on entry — regardless
of must, since the fullness check precedes any expansion. -/
theorem add_none_iff_at_capacity (fuel : Nat) (r : Ring) (node : Nat) (must : Bool)
    (r' : Ring) (res : Option Nat) (heq : add fuel r node must = some (r', res)) :
    res = none ↔ r.slots.length ≥ r.capacity := by
  by_cases hcap : r.slots.length ≥ r.capacity
  · rw [add_at_cap fuel r node must hcap] at heq
    simp only [Option.some.injEq, Prod.mk.injEq] at heq
    obtain ⟨-, h2⟩ := heq
    simp [h2.symm, hcap]
  · by_cases hemp : r.slots = []
    · rw [add_empty fuel r node must hcap hemp] at heq
      simp only [Option.some.injEq, Prod.mk.injEq] at heq
      obtain ⟨-, h2⟩ := heq
      simp [h2.symm, hcap]
    · cases must
      · rw [add_split fuel r node hcap hemp] at heq
        simp only [Option.some.injEq, Prod.mk.injEq] at heq
        obtain ⟨-, h2⟩ := heq
        simp [h2.symm, hcap]
      · rw [add_must_diverges fuel r node hcap hemp] at heq
        exact absurd heq (by simp)

theorem add_none_iff_at_capacity_witness :
    ((some 7 : Option Nat) = none ↔ ringTwo.slots.length ≥ ringTwo.capacity) :=
  add_none_iff_at_capacity 0 ringTwo 7 false (addSplitState ringTwo 7) (some 7) (by decide)

/-- C7 counterexample: rebalance on a four-slot ring of capacity 10
succeeds and produces slot sizes 2, 2, 2, 4: the whole remainder
capacity mod k = 2 goes to the last slot, so max size − min size = 2 > 1. -/
theorem rebalance_imbalance_cex :
    (rebalance ringFour).2 = true ∧
    (rebalance ringFour).1.slots = [⟨1, 2, 1⟩, ⟨3, 4, 2⟩, ⟨5, 6, 3⟩, ⟨7, 10, 4⟩] ∧
    ¬(slotSize ⟨7, 10, 4⟩ - slotSize ⟨1, 2, 1⟩ ≤ 1) := by decide

/-- C7 amended: after rebalance with k ≥ 1 slots, every slot except the
last has size ⌊capacity / k⌋ and the last slot has size ⌊capacity / k⌋ +
capacity mod k, so the size spread equals capacity mod k (0 when k = 1),
which is ≤ 1 only when capacity mod k ≤ 1. -/
theorem rebalance_slot_sizes (r : Ring) (hne : r.slots ≠ []) :
    (rebalance r).2 = true ∧
    (rebalance r).1.slots.length = r.slots.length ∧
    (∀ i, i + 1 < r.slots.length →
      slotSize ((rebalance r).1.slots.getD i dfltSlot) = r.capacity / r.slots.length) ∧
    slotSize ((rebalance r).1.slots.getD (r.slots.length - 1) dfltSlot)
      = r.capacity / r.slots.length + r.capacity % r.slots.length := by
  have he : ¬r.slots.isEmpty := by simpa [List.isEmpty_iff] using hne
  have hpos : 1 ≤ r.slots.length := List.length_pos.mpr hne
  have hslots : (rebalance r).1.slots
      = setLastEnd (relayout (r.capacity / r.slots.length) r.slots 1) r.capacity := by
    simp [rebalance, he]
  have hlenr : (relayout (r.capacity / r.slots.length) r.slots 1).length
      = r.slots.length := relayout_length _ _ _
  refine ⟨by simp [rebalance, he], by rw [hslots, setLastEnd_length, hlenr], ?_, ?_⟩
  · intro i hi
    rw [hslots, setLastEnd_getD_of_lt _ _ i (by omega),
      relayout_getD r.slots _ 1 i (by omega)]
    simp only [slotSize]
    generalize (r.capacity / r.slots.length) = q
    generalize i * q = p
    omega
  · have hne2 : relayout (r.capacity / r.slots.length) r.slots 1 ≠ [] := by
      intro h0
      rw [h0] at hlenr
      simp at hlenr
      omega
    have hlast := setLastEnd_getD_last (relayout (r.capacity / r.slots.length) r.slots 1)
      r.capacity hne2
    rw [hlenr] at hlast
    rw [hslots, hlast, relayout_getD r.slots _ 1 (r.slots.length - 1) (by omega)]
    simp only [slotSize]
    have hdm := Nat.div_add_mod r.capacity r.slots.length
    have hsplit : r.slots.length * (r.capacity / r.slots.length)
        = (r.slots.length - 1) * (r.capacity / r.slots.length)
          + r.capacity / r.slots.length := by
      match hl : r.slots.length, hpos with
      | n + 1, _ => simp [Nat.succ_mul]
    generalize hA : (r.slots.length - 1) * (r.capacity / r.slots.length) = A at hsplit ⊢
    generalize hD : r.slots.length * (r.capacity / r.slots.length) = D at hsplit hdm
    generalize hB : r.capacity / r.slots.length = B at hsplit ⊢
    omega

theorem rebalance_slot_sizes_witness :
    (rebalance ringFour).2 = true ∧
    (rebalance ringFour).1.slots.length = ringFour.slots.length ∧
    (∀ i, i + 1 < ringFour.slots.length →
      slotSize ((rebalance ringFour).1.slots.getD i dfltSlot)
        = ringFour.capacity / ringFour.slots.length) ∧
    slotSize ((rebalance ringFour).1.slots.getD (ringFour.slots.length - 1) dfltSlot)
      = ringFour.capacity / ringFour.slots.length
        + ringFour.capacity % ringFour.slots.length :=
  rebalance_slot_sizes ringFour (by decide)

/-- C8 counterexample: batch_remove([1], must = true) on a one-slot ring
returns absent because rebalancing the emptied ring fails, yet the
removal is not rolled back: the resulting slot sequence is empty while
the original was not. -/
theorem batch_remove_no_rollback_cex :
    (batch_remove ringOne [1] true).2 = none ∧
    (batch_remove ringOne [1] true).1.slots = [] ∧
    ringOne.slots ≠ [] := by decide

/-- C8 amended: when batch_remove(nodes, must = true) returns absent, the
rebalance failed because the removals left the ring empty, and the
removals are NOT rolled back: the post-state's slot sequence is empty. -/
theorem batch_remove_none_empties (r : Ring) (nodes : List Nat) (r' : Ring)
    (heq : batch_remove r nodes true = (r', none)) : r'.slots = [] := by
  rcases hres : (sortDesc (nodes.filterMap
      (fun node => r.slots.findIdx? (fun slot => slot.inner == node)))).foldl
      batchRemoveStep (r, []) with ⟨r2, succ⟩
  by_cases hok : (rebalance r2).2 = true
  · have hbr : batch_remove r nodes true = ((rebalance r2).1, some succ) := by
      simp [batch_remove, hres, hok]
    rw [hbr] at heq
    simp only [Prod.mk.injEq] at heq
    exact absurd heq.2 (by simp)
  · have hempty : r2.slots = [] := (rebalance_false_iff r2).mp (by
      simpa using Bool.not_eq_true _ ▸ hok)
    have hbr : batch_remove r nodes true = ((rebalance r2).1, none) := by
      simp [batch_remove, hres, hok]
    rw [hbr] at heq
    simp only [Prod.mk.injEq] at heq
    rw [rebalance_of_empty r2 hempty] at heq
    rw [← heq.1]
    exact hempty

theorem batch_remove_none_empties_witness :
    (batch_remove ringOne [1] true).1.slots = [] :=
  batch_remove_none_empties ringOne [1] (batch_remove ringOne [1] true).1 (by decide)

/-- C9: starting from a ring with capacity 1024 and an empty slot
sequence (any initial version v), batch_add([1,2,3], must = true)
produces exactly the three slots [1,341], [342,682], [683,1024] and
raises the version by exactly 4: one per add plus one for the final
rebalance. -/
theorem batch_add_scenario (v : Nat) :
    batch_add 0 { slots := [], capacity := 1024, version := v } [1, 2, 3] true =
      some ({ slots := [⟨1, 341, 1⟩, ⟨342, 682, 2⟩, ⟨683, 1024, 3⟩]
              capacity := 1024
              version := v + 4 }, some [1, 2, 3]) := by
  have h1 : add 0 ({ slots := [], capacity := 1024, version := v } : Ring) 1 false
      = some ({ slots := [⟨1, 1024, 1⟩], capacity := 1024, version := v + 1 }, some 1) := rfl
  have h2 : add 0 ({ slots := [⟨1, 1024, 1⟩], capacity := 1024, version := v + 1 } : Ring) 2 false
      = some ({ slots := [⟨1, 512, 1⟩, ⟨513, 1024, 2⟩]
                capacity := 1024
                version := v + 2 }, some 2) := by
    rw [add_split 0 _ 2 (by simp) (by simp)]
    rw [show addSplitState ({ slots := [⟨1, 1024, 1⟩]
                              capacity := 1024
                              version := v + 1 } : Ring) 2
        = { slots := addSplitSlots [⟨1, 1024, 1⟩] 2
            capacity := 1024
            version := v + 2 } from rfl]
    rw [show addSplitSlots [(⟨1, 1024, 1⟩ : Slot)] 2 = [⟨1, 512, 1⟩, ⟨513, 1024, 2⟩] from rfl]
  have h3 : add 0 ({ slots := [⟨1, 512, 1⟩, ⟨513, 1024, 2⟩]
                     capacity := 1024
                     version := v + 2 } : Ring) 3 false
      = some ({ slots := [⟨1, 512, 1⟩, ⟨513, 768, 2⟩, ⟨769, 1024, 3⟩]
                capacity := 1024
                version := v + 3 }, some 3) := by
    rw [add_split 0 _ 3 (by simp) (by simp)]
    rw [show addSplitState ({ slots := [⟨1, 512, 1⟩, ⟨513, 1024, 2⟩]
                              capacity := 1024
                              version := v + 2 } : Ring) 3
        = { slots := addSplitSlots [⟨1, 512, 1⟩, ⟨513, 1024, 2⟩] 3
            capacity := 1024
            version := v + 3 } from rfl]
    rw [show addSplitSlots [(⟨1, 512, 1⟩ : Slot), ⟨513, 1024, 2⟩] 3
        = [⟨1, 512, 1⟩, ⟨513, 768, 2⟩, ⟨769, 1024, 3⟩] from rfl]
  have hbody : addAll 0 [1, 2, 3] ({ slots := [], capacity := 1024, version := v } : Ring) []
      = some ({ slots := [⟨1, 512, 1⟩, ⟨513, 768, 2⟩, ⟨769, 1024, 3⟩]
                capacity := 1024
                version := v + 3 }, [1, 2, 3]) := by
    simp only [addAll, h1, h2, h3]
    rfl
  have h4 : rebalance ({ slots := [⟨1, 512, 1⟩, ⟨513, 768, 2⟩, ⟨769, 1024, 3⟩]
                         capacity := 1024
                         version := v + 3 } : Ring)
      = ({ slots := [⟨1, 341, 1⟩, ⟨342, 682, 2⟩, ⟨683, 1024, 3⟩]
           capacity := 1024
           version := v + 4 }, true) := by
    rw [show rebalance ({ slots := [⟨1, 512, 1⟩, ⟨513, 768, 2⟩, ⟨769, 1024, 3⟩]
                          capacity := 1024
                          version := v + 3 } : Ring)
        = ({ slots := setLastEnd (relayout (1024 / 3)
               [⟨1, 512, 1⟩, ⟨513, 768, 2⟩, ⟨769, 1024, 3⟩] 1) 1024
             capacity := 1024
             version := v + 4 }, true) from rfl]
    rw [show setLastEnd (relayout (1024 / 3)
          [(⟨1, 512, 1⟩ : Slot), ⟨513, 768, 2⟩, ⟨769, 1024, 3⟩] 1) 1024
        = [(⟨1, 341, 1⟩ : Slot), ⟨342, 682, 2⟩, ⟨683, 1024, 3⟩] from rfl]
  unfold batch_add
  rw [if_neg (by simp), if_neg (by simp)]
  rw [hbody]
  show some ((rebalance ({ slots := [⟨1, 512, 1⟩, ⟨513, 768, 2⟩, ⟨769, 1024, 3⟩]
                           capacity := 1024
                           version := v + 3 } : Ring)).1, some [1, 2, 3]) = _
  rw [h4]

/-- C10: for every ring state and every index ≥ slots.len(),
remove_by_index(index, must) returns absent, leaves the slot sequence and
the capacity unchanged, and nevertheless increments the version by
exactly 1, because the version is bumped before the bounds check. -/
theorem remove_by_index_oob_version (r : Ring) (index : Nat) (must : Bool)
    (h : index ≥ r.slots.length) :
    (remove_by_index r index must).2 = none ∧
    (remove_by_index r index must).1.slots = r.slots ∧
    (remove_by_index r index must).1.capacity = r.capacity ∧
    (remove_by_index r index must).1.version = r.version + 1 := by
  rw [remove_by_index_oob r index must h]
  exact ⟨rfl, rfl, rfl, rfl⟩

theorem remove_by_index_oob_version_witness :
    (remove_by_index ringTwo 5 true).2 = none ∧
    (remove_by_index ringTwo 5 true).1.slots = ringTwo.slots ∧
    (remove_by_index ringTwo 5 true).1.capacity = ringTwo.capacity ∧
    (remove_by_index ringTwo 5 true).1.version = ringTwo.version + 1 :=
  remove_by_index_oob_version ringTwo 5 true (by decide)

end HashRing
